import Mathlib

/-!
Verification of the broadcast-domain / subnet-allocation core of the
ipmininet fork in this repository (files `ipmininet/ipnet.py`,
`ipmininet/utils.py`, `ipmininet/link.py`).

A CIDR block of an address family with `W` total bits (W = 32 for IPv4,
W = 128 for IPv6) is modelled as a pair of a network address and a prefix
length, both natural numbers.  The allocator `IPNet._allocate_subnets` is
modelled by `allocateSubnets`, polymorphic over the broadcast-domain type
exactly as the Python code is generic over the `domainlen` / `size_key` /
`net_key` accessors.  The IPv4 instantiation (`IPNet._allocate_ipv4`,
`BroadcastDomain.len_v4`, `BroadcastDomain.max_v4prefixlen`,
`BroadcastDomain.use_ip_version`, `BroadcastDomain.next_ipv4`,
`BroadcastDomain` fixed subnets) is modelled below it.  Python `list.sort`
is stable; it is modelled by `List.insertionSort` with the corresponding
total preorder, which is extensionally the unique stable sort.
-/

/-- A CIDR block: network address and prefix length, for an address family
whose addresses have `W` bits in total. -/
structure Net where
  addr : Nat
  plen : Nat
deriving DecidableEq

/-- Number of addresses in the block (`net.num_addresses`). -/
def Net.size (W : Nat) (n : Net) : Nat := 2 ^ (W - n.plen)

/-- The highest address of the block (`net.broadcast_address`). -/
def Net.bcast (W : Nat) (n : Net) : Nat := n.addr + Net.size W n - 1

/-- Model of `utils.is_subnet_of(a, b)`: true when block `a` lies inside
block `b`, tested on network and broadcast addresses exactly as in the
source. -/
def is_subnet_of (W : Nat) (a b : Net) : Bool :=
  decide (b.addr ≤ a.addr) && decide (Net.bcast W a ≤ Net.bcast W b)

/-- A block is well formed when its prefix length fits the family width and
its address is aligned on its own size, which `ipaddress.ip_network` and
`ip_interface(...).network` guarantee for every block the program builds. -/
def Net.wf (W : Nat) (n : Net) : Prop :=
  n.plen ≤ W ∧ Net.size W n ∣ n.addr

/-- Block `a` is contained in block `b` (as address ranges). -/
def Net.inside (W : Nat) (a b : Net) : Prop :=
  b.addr ≤ a.addr ∧ a.addr + Net.size W a ≤ b.addr + Net.size W b

/-- Blocks `a` and `b` have disjoint address ranges. -/
def Net.disj (W : Nat) (a b : Net) : Prop :=
  a.addr + Net.size W a ≤ b.addr ∨ b.addr + Net.size W b ≤ a.addr

instance (W : Nat) (n : Net) : Decidable (Net.wf W n) :=
  inferInstanceAs (Decidable (n.plen ≤ W ∧ Net.size W n ∣ n.addr))

instance (W : Nat) (a b : Net) : Decidable (Net.inside W a b) :=
  inferInstanceAs (Decidable (b.addr ≤ a.addr ∧
    a.addr + Net.size W a ≤ b.addr + Net.size W b))

instance (W : Nat) (a b : Net) : Decidable (Net.disj W a b) :=
  inferInstanceAs (Decidable (a.addr + Net.size W a ≤ b.addr ∨
    b.addr + Net.size W b ≤ a.addr))

/-- Lower half of a bisection, first element of
`net.subnets(prefixlen_diff=1)`. -/
def Net.lower (W : Nat) (n : Net) : Net := ⟨n.addr, n.plen + 1⟩

/-- Upper half of a bisection, second element of
`net.subnets(prefixlen_diff=1)`. -/
def Net.upper (W : Nat) (n : Net) : Net :=
  ⟨n.addr + 2 ^ (W - (n.plen + 1)), n.plen + 1⟩

/-- Total number of addresses covered by a list of blocks. -/
def sizes (W : Nat) (l : List Net) : Nat := (l.map (Net.size W)).sum

/-- The while-loop of `IPNet._allocate_subnets` that repeatedly bisects a
pool block (left expansion).  `k` is the number of bisections still to do,
`net` the working block and `nets` the upper halves accumulated so far; an
upper half is kept only when it is not a subnet of an already allocated
(user fixed) block, exactly as in the source. -/
def leftExpand (W : Nat) (alloc : List Net) : Nat → Net → List Net → Net × List Net
  | 0, net, nets => (net, nets)
  | k + 1, net, nets =>
    leftExpand W alloc k (Net.lower W net)
      (if (alloc.filter (fun y => is_subnet_of W (Net.upper W net) y)).length = 0
       then nets ++ [Net.upper W net] else nets)

/-- The for-loop over pool entries in `IPNet._allocate_subnets` for one
broadcast domain.  Returns `(none, pool)` when the loop finishes with no
break, and `(some r, pool')` when a break happened on some entry, `r` being
the subnet registered on the domain (`none` when the candidate overlapped
an allocated block and was discarded). -/
def scanPool (W : Nat) (alloc : List Net) (plen : Nat) : List Net → Option (Option Net) × List Net
  | [] => (none, [])
  | net :: rest =>
    if plen = (leftExpand W alloc (plen - net.plen) net []).1.plen then
      (some (if (alloc.filter (fun y =>
                is_subnet_of W (leftExpand W alloc (plen - net.plen) net []).1 y ||
                is_subnet_of W y (leftExpand W alloc (plen - net.plen) net []).1)).length = 0
             then some (leftExpand W alloc (plen - net.plen) net []).1 else none),
       rest ++ (leftExpand W alloc (plen - net.plen) net []).2)
    else
      ((scanPool W alloc plen rest).1, net :: (scanPool W alloc plen rest).2)

/-- Model of `subnets.sort(key=attrgetter('prefixlen'), reverse=True)`:
stable sort of the pool, largest prefix length first. -/
def sortPoolDesc (pool : List Net) : List Net :=
  List.insertionSort (fun a b : Net => b.plen ≤ a.plen) pool

/-- Model of `domains.sort(key=methodcaller(domainlen), reverse=True)`:
stable sort of the domains, largest required length first. -/
def sortDomainsDesc {α : Type} (dlen : α → Nat) (ds : List α) : List α :=
  List.insertionSort (fun a b => dlen b ≤ dlen a) ds

/-- List of subnets actually registered on domains (the non-`None`
`net_key` slots). -/
def assignedNets {α : Type} (assn : List (α × Option Net)) : List Net :=
  assn.filterMap Prod.snd

/-- The per-domain loop of `IPNet._allocate_subnets`.  `assn` pairs every
processed domain with the subnet registered on it (`none` when the domain
was skipped, discarded on an overlap, or the scan found no candidate). -/
def allocGo {α : Type} (W maxPlen : Nat) (sizeKey : α → Nat) (useIp : α → Bool)
    (alloc : List Net) :
    List α → List (α × Option Net) → List Net →
      Except String (List (α × Option Net) × List Net)
  | [], assn, pool => .ok (assn, pool)
  | d :: ds, assn, pool =>
    if useIp d = false then
      allocGo W maxPlen sizeKey useIp alloc ds (assn ++ [(d, none)]) pool
    else
      match pool.getLast? with
      | none =>
        .error "No subnet left in the prefix space for allbroadcast domains."
      | some last =>
        if min maxPlen (sizeKey d) < last.plen then
          .error "Could not find a subnet big enough for a broadcast domain."
        else
          match scanPool W alloc (min maxPlen (sizeKey d)) pool with
          | (none, pool') =>
            allocGo W maxPlen sizeKey useIp alloc ds (assn ++ [(d, none)]) pool'
          | (some r, pool') =>
            allocGo W maxPlen sizeKey useIp alloc ds (assn ++ [(d, r)])
              (sortPoolDesc pool')

/-- Model of `IPNet._allocate_subnets`, generic over the broadcast-domain
type `α` the way the Python code is generic over its accessor names:
`dlen` is the `domainlen` method, `sizeKey` the `size_key` attribute,
`useIp` the `use_ip_version` test, `alloc` the `allocated_subnets`
argument, `pool` the `subnets` free list. -/
def allocateSubnets {α : Type} (W maxPlen : Nat) (dlen sizeKey : α → Nat)
    (useIp : α → Bool) (alloc : List Net) (pool : List Net) (domains : List α) :
    Except String (List (α × Option Net) × List Net) :=
  allocGo W maxPlen sizeKey useIp alloc (sortDomainsDesc dlen domains) []
    (sortPoolDesc pool)

/-- Ceiling of the base-2 logarithm, the exact value of
`math.ceil(math.log(n, 2))` for the integer inputs the program uses.
Defined with a fuel argument for structural recursion. -/
def clog2Aux : Nat → Nat → Nat
  | 0, _ => 0
  | fuel + 1, n => if n ≤ 1 then 0 else clog2Aux fuel ((n + 1) / 2) + 1

/-- Ceiling of the base-2 logarithm. -/
def clog2 (n : Nat) : Nat := clog2Aux n n

/-- An interface, with the fields of `IPIntf` that the allocation core
reads: per-family widths (`interface_width`), the list of IPv4 interface
addresses already present (`ips()`), as (address, prefix length) pairs,
and the `use_v4` flag of the owning node. -/
structure Intf where
  width4 : Nat
  width6 : Nat
  ips4 : List (Nat × Nat)
  useV4 : Bool
deriving DecidableEq

/-- A broadcast domain: the member interfaces (`BroadcastDomain.interfaces`). -/
structure BD where
  intfs : List Intf
deriving DecidableEq

/-- Model of `BroadcastDomain.len_v4` as written in the source: the sum of
the IPv4 widths of the interfaces that already carry at least one IPv4
address. -/
def BD.len_v4 (d : BD) : Nat :=
  (d.intfs.map (fun x => if x.ips4.length > 0 then x.width4 else 0)).sum

/-- The requirement the spec describes for `len_v4`, following the words
of the spec (for comparison with the source function): the sum of the IPv4
interface widths over the member interfaces whose node has IPv4 enabled. -/
def len_v4_spec (d : BD) : Nat :=
  (d.intfs.map (fun x => if x.useV4 then x.width4 else 0)).sum

/-- Model of `BroadcastDomain.max_v4prefixlen` as written in the source:
note that it sums `interface_width[1]`, the IPv6 width, of the
v4-enabled interfaces. -/
def BD.max_v4prefixlen (d : BD) : Nat :=
  32 - clog2 (2 + (d.intfs.map (fun x => if x.useV4 then x.width6 else 0)).sum)

/-- The computation the spec describes for `max_v4prefixlen`, following
the words of the spec (for comparison with the source function): built
from the IPv4 widths (`interface_width[0]`) of the v4-enabled interfaces,
reserving 2 addresses. -/
def max_v4prefixlen_spec (d : BD) : Nat :=
  32 - clog2 (2 + (d.intfs.map (fun x => if x.useV4 then x.width4 else 0)).sum)

/-- Model of `BroadcastDomain.use_ip_version(4)`. -/
def BD.useIpVersion4 (d : BD) : Bool := d.intfs.any (fun i => i.useV4)

/-- The network containing an interface address
(`ip_interface(ip).network`). -/
def netOf (ip : Nat × Nat) : Net := ⟨ip.1 - ip.1 % 2 ^ (32 - ip.2), ip.2⟩

/-- Model of the `fixed_net4s` computation of `BroadcastDomain.__init__`:
the deduplicated list of networks of the IPv4 addresses already present on
member interfaces. -/
def BD.fixed_net4s (d : BD) : List Net :=
  d.intfs.foldl
    (fun acc i =>
      i.ips4.foldl
        (fun acc ip => if netOf ip ∈ acc then acc else acc ++ [netOf ip]) acc)
    []

/-- Model of `IPNet._allocated_ipv4_subnets`. -/
def allocatedIpv4Subnets (bds : List BD) : List Net :=
  bds.foldl (fun acc d => acc ++ d.fixed_net4s) []

/-- The per-family allocation state of a `BroadcastDomain`: the assigned
IPv4 subnet slot (`net`) and the cursor (`_allocated_v4`). -/
structure BDv4State where
  net : Option Net
  allocated_v4 : Nat
deriving DecidableEq

/-- The state `BroadcastDomain.__init__` creates: cursor at 1 (the subnet
address is skipped). -/
def initV4State (net : Option Net) : BDv4State := ⟨net, 1⟩

/-- Model of `BroadcastDomain.next_ipv4`: returns the subnet address at
the cursor and advances the cursor; `net[i]` raises `IndexError` exactly
when the index reaches the number of addresses of the subnet. -/
def next_ipv4 (s : BDv4State) : Except String ((Nat × Nat) × BDv4State) :=
  match s.net with
  | none => .error "No associated IPv4 subnet"
  | some n =>
    if s.allocated_v4 < 2 ^ (32 - n.plen) then
      .ok ((n.addr + s.allocated_v4, n.plen), ⟨some n, s.allocated_v4 + 1⟩)
    else .error "No more available IPv4 address"

/-- Drawing `k` successive addresses from a domain
(`tuple(domain.next_ipv4() for _ in range(intf.interface_width[0]))`). -/
def drawV4 : Nat → BDv4State → List (Nat × Nat) →
    Except String (List (Nat × Nat) × BDv4State)
  | 0, s, acc => .ok (acc, s)
  | k + 1, s, acc => do
    let r ← next_ipv4 s
    drawV4 k r.2 (acc ++ [r.1])

/-- The per-interface issuance loop of `IPNet._allocate_ipv4`: an
interface with no IPv4 address whose node enables IPv4 receives the next
`width` addresses; other interfaces are untouched. -/
def issueIntfs : List Intf → BDv4State → Except String (List Intf × BDv4State)
  | [], s => .ok ([], s)
  | i :: is, s =>
    if i.ips4.length = 0 ∧ i.useV4 = true then do
      let r ← drawV4 i.width4 s []
      let rest ← issueIntfs is r.2
      .ok ({ i with ips4 := r.1 } :: rest.1, rest.2)
    else do
      let rest ← issueIntfs is s
      .ok (i :: rest.1, rest.2)

/-- Model of `IPNet._allocate_ipv4`: subnet allocation over the broadcast
domains followed by address issuance; returns the domains with their
final interfaces and assigned subnets, plus the remaining pool. -/
def allocate_ipv4 (maxPlen : Nat) (pool : List Net) (bds : List BD) :
    Except String (List (BD × Option Net) × List Net) := do
  let r ← allocateSubnets 32 maxPlen BD.len_v4 BD.max_v4prefixlen
    BD.useIpVersion4 (allocatedIpv4Subnets bds) pool bds
  let assn ← r.1.mapM (fun p =>
    if p.1.useIpVersion4 = true then do
      let q ← issueIntfs p.1.intfs (initV4State p.2)
      pure (BD.mk q.1, p.2)
    else pure p)
  pure (assn, r.2)

/-- All blocks of a list are well formed and contained in the base block. -/
def allWfIn (W : Nat) (base : Net) (l : List Net) : Prop :=
  ∀ n ∈ l, Net.wf W n ∧ Net.inside W n base

/-- The subnet a scan registered, as a list (empty when nothing was
registered). -/
def resNets : Option (Option Net) → List Net
  | some (some n) => [n]
  | _ => []

/-- Domain of the concrete run for the IPv4 prefix-length computation: one
v4-enabled interface of width (5, 1) and no pre-set address. -/
def bdC2 : BD := ⟨[⟨5, 1, [], true⟩]⟩

/-- A domain with one v4-enabled interface of width (1, 1) and no pre-set
address. -/
def bdC4 : BD := ⟨[⟨1, 1, [], true⟩]⟩

/-- A 2000-host domain: one v4-enabled interface of width (2000, 2000). -/
def bdC6 : BD := ⟨[⟨2000, 2000, [], true⟩]⟩

/-- A domain with a member interface carrying 10.0.0.5/24 explicitly and
one more unaddressed interface (10.0.0.5 = 167772165). -/
def bdC8 : BD := ⟨[⟨1, 1, [(167772165, 24)], true⟩, ⟨1, 1, [], true⟩]⟩

/-- The same domain after the IPv4 pass with the default base pool
192.168.0.0/16 (3232235520): the unaddressed interface received
192.168.0.1/24 (3232235521). -/
def bdC8out : BD :=
  ⟨[⟨1, 1, [(167772165, 24)], true⟩, ⟨1, 1, [(3232235521, 24)], true⟩]⟩

/-- The pool remaining after the C8 run: the upper halves of the
bisections of 192.168.0.0/16 down to 192.168.0.0/24. -/
def poolC8 : List Net :=
  [⟨3232235776, 24⟩, ⟨3232236032, 23⟩, ⟨3232236544, 22⟩, ⟨3232237568, 21⟩,
   ⟨3232239616, 20⟩, ⟨3232243712, 19⟩, ⟨3232251904, 18⟩, ⟨3232268288, 17⟩]

/-- The pool remaining after carving 10.0.0.0/21 out of 10.0.0.0/16
(10.0.0.0 = 167772160): the upper halves of the five bisections. -/
def poolC6 : List Net :=
  [⟨167774208, 21⟩, ⟨167776256, 20⟩, ⟨167780352, 19⟩, ⟨167788544, 18⟩,
   ⟨167804928, 17⟩]

/-! ### Basic interval lemmas -/

lemma size_pos (W : Nat) (n : Net) : 0 < Net.size W n :=
  Nat.pos_pow_of_pos _ (by decide)

lemma disj_symm (W : Nat) : Symmetric (Net.disj W) := by
  intro a b h
  exact h.symm

lemma inside_refl (W : Nat) (n : Net) : Net.inside W n n :=
  ⟨le_refl _, le_refl _⟩

lemma inside_trans (W : Nat) {a b c : Net} (h1 : Net.inside W a b)
    (h2 : Net.inside W b c) : Net.inside W a c :=
  ⟨le_trans h2.1 h1.1, le_trans h1.2 h2.2⟩

lemma disj_of_inside_left (W : Nat) {a a' b : Net} (h : Net.inside W a a')
    (hd : Net.disj W a' b) : Net.disj W a b := by
  rcases hd with hd | hd
  · exact Or.inl (le_trans h.2 hd)
  · exact Or.inr (le_trans hd h.1)

lemma disj_of_inside_right (W : Nat) {a b b' : Net} (h : Net.inside W b b')
    (hd : Net.disj W a b') : Net.disj W a b :=
  disj_symm W (disj_of_inside_left W h (disj_symm W hd))

/-- Core alignment argument: two blocks whose sizes divide each other and
whose addresses are aligned are nested as soon as they intersect. -/
lemma block_nested {sA sB a b : Nat} (hsB : 0 < sB) (hdvd : sB ∣ sA)
    (ha : sA ∣ a) (hb : sB ∣ b) (h1 : a < b + sB) (h2 : b < a + sA) :
    a ≤ b ∧ b + sB ≤ a + sA := by
  obtain ⟨t, ht⟩ := hdvd
  obtain ⟨q, hq⟩ := ha
  obtain ⟨p, hp⟩ := hb
  subst ht hq hp
  have htq : sB * (t * q) < sB * (p + 1) := by
    calc sB * (t * q) = sB * t * q := by ring
    _ < sB * p + sB := h1
    _ = sB * (p + 1) := by ring
  have h1' : t * q < p + 1 := Nat.lt_of_mul_lt_mul_left htq
  have hpq : sB * p < sB * (t * q + t) := by
    calc sB * p < sB * t * q + sB * t := h2
    _ = sB * (t * q + t) := by ring
  have h2' : p < t * q + t := Nat.lt_of_mul_lt_mul_left hpq
  constructor
  · calc sB * t * q = sB * (t * q) := by ring
    _ ≤ sB * p := Nat.mul_le_mul_left sB (Nat.lt_succ_iff.mp h1')
  · calc sB * p + sB = sB * (p + 1) := by ring
    _ ≤ sB * (t * q + t) := Nat.mul_le_mul_left sB h2'
    _ = sB * t * q + sB * t := by ring

lemma size_dvd_size {W : Nat} {a b : Net} (h : b.plen ≤ a.plen) :
    Net.size W a ∣ Net.size W b :=
  pow_dvd_pow 2 (Nat.sub_le_sub_left h W)

/-- Two well-formed blocks of the same family that are not nested in
either direction are disjoint: CIDR blocks are nested or disjoint. -/
lemma disj_of_not_subnets {W : Nat} {a b : Net} (ha : Net.wf W a)
    (hb : Net.wf W b) (h1 : is_subnet_of W a b = false)
    (h2 : is_subnet_of W b a = false) : Net.disj W a b := by
  by_contra hcon
  rw [Net.disj, not_or, not_le, not_le] at hcon
  obtain ⟨hc1, hc2⟩ := hcon
  have hsa := size_pos W a
  have hsb := size_pos W b
  simp only [is_subnet_of, Bool.and_eq_false_iff, decide_eq_false_iff_not,
    not_le, Net.bcast] at h1 h2
  rcases le_total a.plen b.plen with hp | hp
  · -- `b` is the smaller (or equal) block, so `b` nests inside `a`
    have := block_nested hsb (size_dvd_size hp) ha.2 hb.2 hc2 hc1
    rcases h2 with h | h
    · omega
    · omega
  · have := block_nested hsa (size_dvd_size hp) hb.2 ha.2 hc1 hc2
    rcases h1 with h | h
    · omega
    · omega

lemma wf_lower {W : Nat} {n : Net} (hn : Net.wf W n) (h : n.plen < W) :
    Net.wf W (Net.lower W n) := by
  refine ⟨h, ?_⟩
  have : Net.size W (Net.lower W n) ∣ Net.size W n := by
    simpa [Net.lower] using size_dvd_size (W := W) (a := Net.lower W n)
      (b := n) (Nat.le_succ _)
  exact dvd_trans this hn.2

lemma size_lower (W : Nat) {n : Net} (h : n.plen < W) :
    Net.size W (Net.lower W n) = 2 ^ (W - (n.plen + 1)) := rfl

lemma size_upper (W : Nat) (n : Net) :
    Net.size W (Net.upper W n) = 2 ^ (W - (n.plen + 1)) := rfl

lemma size_split {W : Nat} {n : Net} (h : n.plen < W) :
    Net.size W n = Net.size W (Net.lower W n) + Net.size W (Net.upper W n) := by
  have : W - n.plen = (W - (n.plen + 1)) + 1 := by omega
  simp only [Net.size, Net.lower, Net.upper, this, pow_succ]
  ring

lemma wf_upper {W : Nat} {n : Net} (hn : Net.wf W n) (h : n.plen < W) :
    Net.wf W (Net.upper W n) := by
  refine ⟨h, ?_⟩
  have h1 : Net.size W (Net.upper W n) ∣ n.addr := by
    have : Net.size W (Net.upper W n) ∣ Net.size W n := by
      simpa [Net.upper] using size_dvd_size (W := W) (a := Net.upper W n)
        (b := n) (Nat.le_succ _)
    exact dvd_trans this hn.2
  exact Dvd.dvd.add h1 (dvd_refl _)

lemma inside_lower {W : Nat} {n : Net} (h : n.plen < W) :
    Net.inside W (Net.lower W n) n := by
  refine ⟨le_refl _, ?_⟩
  have := size_split (W := W) (n := n) h
  simp only [Net.lower] at *
  omega

lemma inside_upper {W : Nat} {n : Net} (h : n.plen < W) :
    Net.inside W (Net.upper W n) n := by
  have hs := size_split (W := W) (n := n) h
  have h1 : Net.size W (Net.lower W n) = 2 ^ (W - (n.plen + 1)) := rfl
  have h2 : Net.size W (Net.upper W n) = 2 ^ (W - (n.plen + 1)) := rfl
  refine ⟨Nat.le_add_right _ _, ?_⟩
  simp only [Net.upper] at *
  omega

lemma disj_lower_upper (W : Nat) (n : Net) :
    Net.disj W (Net.lower W n) (Net.upper W n) := by
  exact Or.inl (le_refl _)

/-! ### Behaviour of the bisection loop -/

lemma sizes_nil (W : Nat) : sizes W [] = 0 := rfl

lemma sizes_cons (W : Nat) (a : Net) (l : List Net) :
    sizes W (a :: l) = Net.size W a + sizes W l := by
  simp [sizes]

lemma sizes_append (W : Nat) (l m : List Net) :
    sizes W (l ++ m) = sizes W l + sizes W m := by
  simp [sizes]

/-- The working block after `k` bisections keeps its address and has its
prefix length increased by `k`. -/
lemma leftExpand_fst (W : Nat) (alloc : List Net) (k : Nat) :
    ∀ (net : Net) (nets : List Net),
    (leftExpand W alloc k net nets).1 = ⟨net.addr, net.plen + k⟩ := by
  induction k with
  | zero => intro net nets; rfl
  | succ k ih =>
    intro net nets
    simp only [leftExpand]
    rw [ih]
    show (⟨net.addr, net.plen + 1 + k⟩ : Net) = ⟨net.addr, net.plen + (k + 1)⟩
    rw [show net.plen + 1 + k = net.plen + (k + 1) from by omega]

/-- Main property of the bisection loop: it appends to the accumulator a
list of upper halves that are well formed, lie inside the original block,
and are mutually disjoint and disjoint from the final working block; with
no allocated subnets nothing is dropped, so the sizes add up exactly. -/
lemma leftExpand_spec (W : Nat) (alloc : List Net) (k : Nat) :
    ∀ (net : Net) (nets : List Net), Net.wf W net → net.plen + k ≤ W →
    ∃ new : List Net,
      (leftExpand W alloc k net nets).2 = nets ++ new ∧
      Net.wf W ⟨net.addr, net.plen + k⟩ ∧
      (∀ x ∈ new, Net.wf W x ∧ Net.inside W x net) ∧
      Net.inside W ⟨net.addr, net.plen + k⟩ net ∧
      List.Pairwise (Net.disj W) ((⟨net.addr, net.plen + k⟩ : Net) :: new) ∧
      (alloc = [] →
        Net.size W ⟨net.addr, net.plen + k⟩ + sizes W new = Net.size W net) := by
  induction k with
  | zero =>
    intro net nets hwf _
    refine ⟨[], by simp [leftExpand], hwf, by simp, inside_refl W net, ?_, ?_⟩
    · simp
    · intro _
      simp [sizes_nil]
  | succ k ih =>
    intro net nets hwf hk
    have hplt : net.plen < W := by omega
    have hwl : Net.wf W (Net.lower W net) := wf_lower hwf hplt
    have hwu : Net.wf W (Net.upper W net) := wf_upper hwf hplt
    have hkey : (⟨(Net.lower W net).addr, (Net.lower W net).plen + k⟩ : Net) =
        ⟨net.addr, net.plen + (k + 1)⟩ := by
      show (⟨net.addr, net.plen + 1 + k⟩ : Net) = ⟨net.addr, net.plen + (k + 1)⟩
      rw [show net.plen + 1 + k = net.plen + (k + 1) from by omega]
    have hkl : (Net.lower W net).plen + k ≤ W := by
      show net.plen + 1 + k ≤ W
      omega
    simp only [leftExpand]
    by_cases hc :
        (alloc.filter (fun y => is_subnet_of W (Net.upper W net) y)).length = 0
    · rw [if_pos hc]
      obtain ⟨new', h2, hwf', hnew', hins', hpw', hsz'⟩ :=
        ih (Net.lower W net) (nets ++ [Net.upper W net]) hwl hkl
      rw [hkey] at hwf' hins' hpw' hsz'
      refine ⟨Net.upper W net :: new', ?_, hwf', ?_, ?_, ?_, ?_⟩
      · rw [h2, List.append_assoc]
        rfl
      · intro x hx
        rw [List.mem_cons] at hx
        rcases hx with hx | hx
        · subst hx
          exact ⟨hwu, inside_upper hplt⟩
        · exact ⟨(hnew' x hx).1,
            inside_trans W (hnew' x hx).2 (inside_lower hplt)⟩
      · exact inside_trans W hins' (inside_lower hplt)
      · rw [List.pairwise_cons]
        rw [List.pairwise_cons] at hpw'
        refine ⟨?_, ?_⟩
        · intro x hx
          rw [List.mem_cons] at hx
          rcases hx with hx | hx
          · subst hx
            exact disj_of_inside_left W hins' (disj_lower_upper W net)
          · exact hpw'.1 x hx
        · rw [List.pairwise_cons]
          refine ⟨?_, hpw'.2⟩
          intro x hx
          exact disj_symm W (disj_of_inside_left W (hnew' x hx).2
            (disj_lower_upper W net))
      · intro hnil
        have := hsz' hnil
        rw [sizes_cons]
        have hs := size_split (W := W) (n := net) hplt
        omega
    · rw [if_neg hc]
      obtain ⟨new', h2, hwf', hnew', hins', hpw', _⟩ :=
        ih (Net.lower W net) nets hwl hkl
      rw [hkey] at hwf' hins' hpw'
      refine ⟨new', h2, hwf', ?_, ?_, hpw', ?_⟩
      · intro x hx
        exact ⟨(hnew' x hx).1,
          inside_trans W (hnew' x hx).2 (inside_lower hplt)⟩
      · exact inside_trans W hins' (inside_lower hplt)
      · intro hnil
        subst hnil
        simp at hc

/-! ### Behaviour of the pool scan -/

lemma pairwise_of_perm {W : Nat} {l l' : List Net} (p : l.Perm l')
    (h : List.Pairwise (Net.disj W) l) : List.Pairwise (Net.disj W) l' :=
  (List.Perm.pairwise_iff (fun hxy => disj_symm W hxy) p).mp h

lemma pairwise_replace (W : Nat) (e : Net) (L S : List Net)
    (h : List.Pairwise (Net.disj W) (e :: L))
    (hS : List.Pairwise (Net.disj W) S)
    (hSe : ∀ x ∈ S, Net.inside W x e) :
    List.Pairwise (Net.disj W) (S ++ L) := by
  rw [List.pairwise_append]
  rw [List.pairwise_cons] at h
  exact ⟨hS, h.2, fun x hx y hy => disj_of_inside_left W (hSe x hx) (h.1 y hy)⟩

/-- When the scan registers a subnet `n`, its prefix length is exactly the
requested one (the break happens only on `plen == net.prefixlen`). -/
lemma scanPool_assigned_plen (W : Nat) (alloc : List Net) (plen : Nat) :
    ∀ (pool : List Net) (res : Option (Option Net)) (pool' : List Net),
    scanPool W alloc plen pool = (res, pool') →
    ∀ n, res = some (some n) → n.plen = plen := by
  intro pool
  induction pool with
  | nil =>
    intro res pool' h n hr
    simp only [scanPool] at h
    injection h with h1 h2
    rw [← h1] at hr
    cases hr
  | cons e rest ih =>
    intro res pool' h n hr
    simp only [scanPool] at h
    by_cases hb : plen = (leftExpand W alloc (plen - e.plen) e []).1.plen
    · rw [if_pos hb] at h
      injection h with h1 h2
      rw [← h1] at hr
      by_cases hc : (alloc.filter (fun y =>
          is_subnet_of W (leftExpand W alloc (plen - e.plen) e []).1 y ||
          is_subnet_of W y (leftExpand W alloc (plen - e.plen) e []).1)).length = 0
      · rw [if_pos hc] at hr
        injection hr with hr1
        injection hr1 with hr2
        rw [← hr2]
        exact hb.symm
      · rw [if_neg hc] at hr
        injection hr with hr1
        cases hr1
    · rw [if_neg hb] at h
      injection h with h1 h2
      exact ih (scanPool W alloc plen rest).1 (scanPool W alloc plen rest).2
        rfl n (by rw [h1]; exact hr)

/-- With no allocated subnets, the scan always registers a subnet as soon
as some pool entry can reach the requested prefix length. -/
lemma scanPool_found (W : Nat) (plen : Nat) :
    ∀ (pool : List Net), (∃ e ∈ pool, e.plen ≤ plen) →
    ∃ n, (scanPool W [] plen pool).1 = some (some n) := by
  intro pool
  induction pool with
  | nil =>
    intro h
    simp at h
  | cons e rest ih =>
    intro h
    obtain ⟨e₀, he₀, hle⟩ := h
    by_cases hb : plen = (leftExpand W [] (plen - e.plen) e []).1.plen
    · simp only [scanPool, if_pos hb]
      exact ⟨(leftExpand W [] (plen - e.plen) e []).1, by simp⟩
    · simp only [scanPool, if_neg hb]
      apply ih
      rcases List.mem_cons.mp he₀ with hx | hx

      · exfalso
        apply hb
        subst hx
        rw [leftExpand_fst]
        show plen = e₀.plen + (plen - e₀.plen)
        omega
      · exact ⟨e₀, hx, hle⟩

lemma pairwise_append_of (W : Nat) {l m : List Net}
    (hl : List.Pairwise (Net.disj W) l) (hm : List.Pairwise (Net.disj W) m)
    (hx : ∀ x ∈ l, ∀ y ∈ m, Net.disj W x y) :
    List.Pairwise (Net.disj W) (l ++ m) :=
  List.pairwise_append.mpr ⟨hl, hm, hx⟩

/-- Invariant preservation of the pool scan for one domain.  `C` is a
context of blocks (the subnets assigned to previous domains): if the pool
and the context hold well-formed blocks inside the base and are mutually
disjoint, the same holds after the scan, with the registered subnet (if
any) disjoint from every well-formed allocated (fixed) block, and - with
no fixed blocks - address conservation. -/
lemma scanPool_inv (W : Nat) (alloc : List Net) (base : Net) (plen : Nat)
    (hplen : plen ≤ W) :
    ∀ (pool C : List Net) (res : Option (Option Net)) (pool' : List Net),
    scanPool W alloc plen pool = (res, pool') →
    allWfIn W base pool → allWfIn W base C →
    List.Pairwise (Net.disj W) (pool ++ C) →
    allWfIn W base (pool' ++ resNets res) ∧
    List.Pairwise (Net.disj W) ((pool' ++ resNets res) ++ C) ∧
    (∀ n, res = some (some n) → ∀ y ∈ alloc, Net.wf W y → Net.disj W n y) ∧
    (res = none → pool' = pool) ∧
    (alloc = [] → sizes W (pool' ++ resNets res) = sizes W pool ∧
      res ≠ some none) := by
  intro pool
  induction pool with
  | nil =>
    intro C res pool' h hpool hC hpw
    simp only [scanPool] at h
    injection h with h1 h2
    subst h1
    subst h2
    refine ⟨by simp [allWfIn, resNets], by simpa [resNets] using hpw, ?_,
      fun _ => rfl, ?_⟩
    · intro n hn
      cases hn
    · intro _
      exact ⟨rfl, by simp⟩
  | cons e rest ih =>
    intro C res pool' h hpool hC hpw
    have hwfe := hpool e (List.mem_cons_self e rest)
    have hpoolr : allWfIn W base rest := fun n hn =>
      hpool n (List.mem_cons_of_mem e hn)
    simp only [scanPool] at h
    by_cases hb : plen = (leftExpand W alloc (plen - e.plen) e []).1.plen
    · rw [if_pos hb] at h
      injection h with h1 h2
      have hLfst := leftExpand_fst W alloc (plen - e.plen) e []
      have heplen : e.plen ≤ plen := by
        rw [hLfst] at hb
        simp only at hb
        omega
      obtain ⟨new, hnew2, hwfM, hnewP, hinsM, hpwM, hszM⟩ :=
        leftExpand_spec W alloc (plen - e.plen) e [] hwfe.1 (by omega)
      rw [hLfst] at h1
      rw [hnew2] at h2
      simp only [List.nil_append] at h2
      -- decompose the starting pairwise hypothesis
      have hpw' : List.Pairwise (Net.disj W) (e :: (rest ++ C)) := hpw
      rw [List.pairwise_cons] at hpw'
      obtain ⟨hecross, hrc⟩ := hpw'
      have hrestPW : List.Pairwise (Net.disj W) rest :=
        (List.pairwise_append.mp hrc).1
      have hCPW : List.Pairwise (Net.disj W) C :=
        (List.pairwise_append.mp hrc).2.1
      have hrestC : ∀ x ∈ rest, ∀ y ∈ C, Net.disj W x y :=
        (List.pairwise_append.mp hrc).2.2
      have hMnew : ∀ x ∈ (⟨e.addr, e.plen + (plen - e.plen)⟩ : Net) :: new,
          Net.inside W x e := by
        intro x hx
        rw [List.mem_cons] at hx
        rcases hx with hx | hx
        · subst hx
          exact hinsM
        · exact (hnewP x hx).2
      have hnewPW : List.Pairwise (Net.disj W) new :=
        (List.pairwise_cons.mp hpwM).2
      have hMnewD : ∀ x ∈ new,
          Net.disj W ⟨e.addr, e.plen + (plen - e.plen)⟩ x :=
        (List.pairwise_cons.mp hpwM).1
      -- facts used by every sub-goal below
      have hwfIn : ∀ x, Net.inside W x e → Net.wf W x → Net.wf W x ∧
          Net.inside W x base :=
        fun x hx hw => ⟨hw, inside_trans W hx hwfe.2⟩
      have hdisjRest : ∀ x, Net.inside W x e → ∀ y ∈ rest, Net.disj W x y :=
        fun x hx y hy => disj_of_inside_left W hx
          (hecross y (List.mem_append_left C hy))
      have hdisjC : ∀ x, Net.inside W x e → ∀ y ∈ C, Net.disj W x y :=
        fun x hx y hy => disj_of_inside_left W hx
          (hecross y (List.mem_append_right rest hy))
      by_cases hc : (alloc.filter (fun y =>
          is_subnet_of W (⟨e.addr, e.plen + (plen - e.plen)⟩ : Net) y ||
          is_subnet_of W y ⟨e.addr, e.plen + (plen - e.plen)⟩)).length = 0
      · rw [if_pos hc] at h1
        subst h1
        subst h2
        simp only [resNets]
        refine ⟨?_, ?_, ?_, ?_, ?_⟩
        · intro n hn
          rw [List.mem_append] at hn
          rcases hn with hn | hn
          · rw [List.mem_append] at hn
            rcases hn with hn | hn
            · exact hpoolr n hn
            · exact hwfIn n (hnewP n hn).2 (hnewP n hn).1
          · rw [List.mem_singleton] at hn
            subst hn
            exact hwfIn _ hinsM hwfM
        · refine pairwise_append_of W ?_ hCPW ?_
          · refine pairwise_append_of W ?_ ?_ ?_
            · refine pairwise_append_of W hrestPW hnewPW ?_
              intro x hx y hy
              exact disj_symm W (hdisjRest y (hnewP y hy).2 x hx)
            · simp
            · intro x hx y hy
              rw [List.mem_singleton] at hy
              subst hy
              rw [List.mem_append] at hx
              rcases hx with hx | hx
              · exact disj_symm W (hdisjRest _ hinsM x hx)
              · exact disj_symm W (hMnewD x hx)
          · intro x hx y hy
            rw [List.mem_append] at hx
            rcases hx with hx | hx
            · rw [List.mem_append] at hx
              rcases hx with hx | hx
              · exact hrestC x hx y hy
              · exact hdisjC x (hnewP x hx).2 y hy
            · rw [List.mem_singleton] at hx
              subst hx
              exact hdisjC _ hinsM y hy
        · intro n hn y hy hwfy
          injection hn with hn1
          injection hn1 with hn2
          subst hn2
          have hyf : ¬ (is_subnet_of W (⟨e.addr, e.plen + (plen - e.plen)⟩ : Net) y ||
              is_subnet_of W y ⟨e.addr, e.plen + (plen - e.plen)⟩) = true := by
            intro hcontra
            have : y ∈ alloc.filter (fun y =>
                is_subnet_of W (⟨e.addr, e.plen + (plen - e.plen)⟩ : Net) y ||
                is_subnet_of W y ⟨e.addr, e.plen + (plen - e.plen)⟩) :=
              List.mem_filter.mpr ⟨hy, hcontra⟩
            rw [List.length_eq_zero] at hc
            rw [hc] at this
            cases this
          rw [Bool.or_eq_true, not_or] at hyf
          exact disj_of_not_subnets hwfM hwfy
            (Bool.not_eq_true _ ▸ Bool.of_not_eq_true hyf.1)
            (Bool.not_eq_true _ ▸ Bool.of_not_eq_true hyf.2)
        · intro hcontra
          cases hcontra
        · intro hnil
          constructor
          · have := hszM hnil
            rw [sizes_append, sizes_append, sizes_cons]
            simp only [sizes_cons, sizes_nil] at *
            omega
          · simp
      · rw [if_neg hc] at h1
        subst h1
        subst h2
        simp only [resNets, List.append_nil]
        refine ⟨?_, ?_, ?_, ?_, ?_⟩
        · intro n hn
          rw [List.mem_append] at hn
          rcases hn with hn | hn
          · exact hpoolr n hn
          · exact hwfIn n (hnewP n hn).2 (hnewP n hn).1
        · refine pairwise_append_of W ?_ hCPW ?_
          · refine pairwise_append_of W hrestPW hnewPW ?_
            intro x hx y hy
            exact disj_symm W (hdisjRest y (hnewP y hy).2 x hx)
          · intro x hx y hy
            rw [List.mem_append] at hx
            rcases hx with hx | hx
            · exact hrestC x hx y hy
            · exact hdisjC x (hnewP x hx).2 y hy
        · intro n hn
          cases hn
        · intro hcontra
          cases hcontra
        · intro hnil
          exfalso
          apply hc
          subst hnil
          simp
    · rw [if_neg hb] at h
      injection h with h1 h2
      have hpwr : List.Pairwise (Net.disj W) (rest ++ (e :: C)) := by
        have hpw' : List.Pairwise (Net.disj W) (e :: (rest ++ C)) := hpw
        exact pairwise_of_perm (List.perm_middle).symm hpw'
      have hCe : allWfIn W base (e :: C) := by
        intro n hn
        rw [List.mem_cons] at hn
        rcases hn with hn | hn
        · subst hn
          exact hwfe
        · exact hC n hn
      obtain ⟨ih1, ih2, ih3, ih4, ih5⟩ :=
        ih (e :: C) (scanPool W alloc plen rest).1
          (scanPool W alloc plen rest).2 rfl hpoolr hCe hpwr
      subst h1
      subst h2
      refine ⟨?_, ?_, ih3, ?_, ?_⟩
      · intro n hn
        rw [List.cons_append, List.mem_cons] at hn
        rcases hn with hn | hn
        · subst hn
          exact hwfe
        · exact ih1 n hn
      · exact pairwise_of_perm List.perm_middle ih2
      · intro hres
        rw [ih4 hres]
      · intro hnil
        obtain ⟨ihs, ihn⟩ := ih5 hnil
        constructor
        · rw [List.cons_append, sizes_cons, ihs, sizes_cons]
        · exact ihn

/-! ### Behaviour of the per-domain loop -/

lemma assignedNets_append {α : Type} (assn : List (α × Option Net)) (d : α)
    (r : Option Net) :
    assignedNets (assn ++ [(d, r)]) = assignedNets assn ++ r.toList := by
  cases r <;> simp [assignedNets]

lemma resNets_some (r : Option Net) : resNets (some r) = r.toList := by
  cases r <;> rfl

lemma sizes_perm {W : Nat} {l l' : List Net} (p : l.Perm l') :
    sizes W l = sizes W l' :=
  List.Perm.sum_eq (p.map (Net.size W))

/-- Every subnet registered by the loop has prefix length
`min(max_prefixlen, size_key)` of its domain. -/
lemma allocGo_plen {α : Type} (W maxPlen : Nat) (sizeKey : α → Nat)
    (useIp : α → Bool) (alloc : List Net) :
    ∀ (ds : List α) (assn : List (α × Option Net)) (pool : List Net)
      (out : List (α × Option Net) × List Net),
    allocGo W maxPlen sizeKey useIp alloc ds assn pool = .ok out →
    (∀ p ∈ assn, ∀ n, p.2 = some n → n.plen = min maxPlen (sizeKey p.1)) →
    ∀ p ∈ out.1, ∀ n, p.2 = some n → n.plen = min maxPlen (sizeKey p.1) := by
  intro ds
  induction ds with
  | nil =>
    intro assn pool out h hass
    simp only [allocGo] at h
    injection h with h1
    rw [← h1]
    exact hass
  | cons d ds ih =>
    intro assn pool out h hass
    simp only [allocGo] at h
    by_cases hu : useIp d = false
    · rw [if_pos hu] at h
      refine ih _ _ _ h ?_
      intro p hp n hn
      rw [List.mem_append] at hp
      rcases hp with hp | hp
      · exact hass p hp n hn
      · rw [List.mem_singleton] at hp
        subst hp
        cases hn
    · rw [if_neg hu] at h
      split at h
      · cases h
      · split at h
        · cases h
        · split at h
          · refine ih _ _ _ h ?_
            intro p hp n hn
            rw [List.mem_append] at hp
            rcases hp with hp | hp
            · exact hass p hp n hn
            · rw [List.mem_singleton] at hp
              subst hp
              cases hn
          · rename_i r pool' hsp
            refine ih _ _ _ h ?_
            intro p hp n hn
            rw [List.mem_append] at hp
            rcases hp with hp | hp
            · exact hass p hp n hn
            · rw [List.mem_singleton] at hp
              subst hp
              simp only at hn
              subst hn
              exact scanPool_assigned_plen W alloc (min maxPlen (sizeKey d))
                pool (some (some n)) pool' hsp n rfl

/-- With no allocated (user fixed) subnets, every family-enabled domain
the loop processes successfully receives a subnet: the guard guarantees a
big-enough pool block exists, the scan then always registers one. -/
lemma allocGo_assigns {α : Type} (W maxPlen : Nat) (sizeKey : α → Nat)
    (useIp : α → Bool) :
    ∀ (ds : List α) (assn : List (α × Option Net)) (pool : List Net)
      (out : List (α × Option Net) × List Net),
    allocGo W maxPlen sizeKey useIp [] ds assn pool = .ok out →
    (∀ p ∈ assn, useIp p.1 = true → ∃ n, p.2 = some n) →
    ∀ p ∈ out.1, useIp p.1 = true → ∃ n, p.2 = some n := by
  intro ds
  induction ds with
  | nil =>
    intro assn pool out h hass
    simp only [allocGo] at h
    injection h with h1
    rw [← h1]
    exact hass
  | cons d ds ih =>
    intro assn pool out h hass
    simp only [allocGo] at h
    by_cases hu : useIp d = false
    · rw [if_pos hu] at h
      refine ih _ _ _ h ?_
      intro p hp hip
      rw [List.mem_append] at hp
      rcases hp with hp | hp
      · exact hass p hp hip
      · rw [List.mem_singleton] at hp
        subst hp
        rw [hip] at hu
        cases hu
    · rw [if_neg hu] at h
      split at h
      · cases h
      · rename_i last hgl
        split at h
        · cases h
        · rename_i hguard
          have hfound := scanPool_found W (min maxPlen (sizeKey d)) pool
            ⟨last, List.mem_of_getLast?_eq_some hgl, by omega⟩
          split at h
          · rename_i pool' hsp
            exfalso
            obtain ⟨n, hn⟩ := hfound
            rw [hsp] at hn
            cases hn
          · rename_i r pool' hsp
            refine ih _ _ _ h ?_
            intro p hp hip
            rw [List.mem_append] at hp
            rcases hp with hp | hp
            · exact hass p hp hip
            · rw [List.mem_singleton] at hp
              subst hp
              obtain ⟨n, hn⟩ := hfound
              rw [hsp] at hn
              injection hn with hn1
              exact ⟨n, hn1⟩

/-- Main invariant of the per-domain loop: well-formedness, containment
in the base block, mutual disjointness of pool blocks and registered
subnets, disjointness of registered subnets from well-formed allocated
(fixed) blocks, and - with no fixed blocks - conservation of the total
address count. -/
lemma allocGo_inv {α : Type} (W maxPlen : Nat) (sizeKey : α → Nat)
    (useIp : α → Bool) (alloc : List Net) (base : Net) (hW : maxPlen ≤ W) :
    ∀ (ds : List α) (assn : List (α × Option Net)) (pool : List Net)
      (out : List (α × Option Net) × List Net),
    allocGo W maxPlen sizeKey useIp alloc ds assn pool = .ok out →
    allWfIn W base pool → allWfIn W base (assignedNets assn) →
    List.Pairwise (Net.disj W) (pool ++ assignedNets assn) →
    (∀ n ∈ assignedNets assn, ∀ y ∈ alloc, Net.wf W y → Net.disj W n y) →
    allWfIn W base (out.2 ++ assignedNets out.1) ∧
    List.Pairwise (Net.disj W) (out.2 ++ assignedNets out.1) ∧
    (∀ n ∈ assignedNets out.1, ∀ y ∈ alloc, Net.wf W y → Net.disj W n y) ∧
    (alloc = [] →
      sizes W (out.2 ++ assignedNets out.1) =
        sizes W (pool ++ assignedNets assn)) := by
  intro ds
  induction ds with
  | nil =>
    intro assn pool out h hpool hassn hpw hdisj
    simp only [allocGo] at h
    injection h with h1
    rw [← h1]
    refine ⟨?_, hpw, hdisj, fun _ => rfl⟩
    intro n hn
    rw [List.mem_append] at hn
    rcases hn with hn | hn
    · exact hpool n hn
    · exact hassn n hn
  | cons d ds ih =>
    intro assn pool out h hpool hassn hpw hdisj
    simp only [allocGo] at h
    have hskip : assignedNets (assn ++ [(d, (none : Option Net))]) =
        assignedNets assn := by
      rw [assignedNets_append]
      simp
    by_cases hu : useIp d = false
    · rw [if_pos hu] at h
      have := ih _ _ _ h hpool (by rw [hskip]; exact hassn)
        (by rw [hskip]; exact hpw) (by rw [hskip]; exact hdisj)
      rw [hskip] at this
      exact this
    · rw [if_neg hu] at h
      split at h
      · cases h
      · rename_i last hgl
        split at h
        · cases h
        · rename_i hguard
          have hplen : min maxPlen (sizeKey d) ≤ W :=
            le_trans (min_le_left _ _) hW
          split at h
          · rename_i pool' hsp
            obtain ⟨I1, I2, I3, I4, I5⟩ := scanPool_inv W alloc base
              (min maxPlen (sizeKey d)) hplen pool (assignedNets assn)
              none pool' hsp hpool hassn hpw
            rw [I4 rfl] at h
            have := ih _ _ _ h hpool (by rw [hskip]; exact hassn)
              (by rw [hskip]; exact hpw) (by rw [hskip]; exact hdisj)
            rw [hskip] at this
            exact this
          · rename_i r pool' hsp
            obtain ⟨I1, I2, I3, I4, I5⟩ := scanPool_inv W alloc base
              (min maxPlen (sizeKey d)) hplen pool (assignedNets assn)
              (some r) pool' hsp hpool hassn hpw
            rw [resNets_some] at I1 I2 I5
            have hAnew : assignedNets (assn ++ [(d, r)]) =
                assignedNets assn ++ r.toList := assignedNets_append assn d r
            have hsortp : (sortPoolDesc pool').Perm pool' :=
              List.perm_insertionSort _ _
            have hpermBig : ((pool' ++ r.toList) ++ assignedNets assn).Perm
                (sortPoolDesc pool' ++ (assignedNets assn ++ r.toList)) := by
              refine (List.Perm.of_eq (List.append_assoc _ _ _)).trans ?_
              refine (List.Perm.append_left pool'
                List.perm_append_comm).trans ?_
              exact List.Perm.append_right _ hsortp.symm
            have hrt : ∀ x ∈ r.toList, r = some x := by
              intro x hx
              cases r with
              | none => simp [Option.toList] at hx
              | some v =>
                simp only [Option.toList, List.mem_singleton] at hx
                subst hx
                rfl
            refine ?_
            have hrec := ih _ _ _ h ?_ ?_ ?_ ?_
            · rw [hAnew] at hrec
              refine ⟨hrec.1, hrec.2.1, hrec.2.2.1, ?_⟩
              intro hnil
              rw [hrec.2.2.2 hnil]
              have hs1 : sizes W (sortPoolDesc pool' ++
                  (assignedNets assn ++ r.toList)) =
                  sizes W ((pool' ++ r.toList) ++ assignedNets assn) :=
                (sizes_perm hpermBig).symm
              rw [hs1, sizes_append, (I5 hnil).1, sizes_append]
            · intro n hn
              simp only [sortPoolDesc, List.mem_insertionSort] at hn
              exact I1 n (List.mem_append_left _ hn)
            · intro n hn
              rw [hAnew, List.mem_append] at hn
              rcases hn with hn | hn
              · exact hassn n hn
              · exact I1 n (List.mem_append_right _ hn)
            · rw [hAnew]
              exact pairwise_of_perm hpermBig I2
            · intro n hn y hy hwfy
              rw [hAnew, List.mem_append] at hn
              rcases hn with hn | hn
              · exact hdisj n hn y hy hwfy
              · exact I3 n (by rw [hrt n hn]) y hy hwfy


/-! ### Final-state invariants of the allocator -/

lemma sortPoolDesc_singleton (b : Net) : sortPoolDesc [b] = [b] := rfl

/-- Invariants of a completed allocator run started from a single base
block: everything left in the pool or registered on a domain is well
formed and inside the base, mutually disjoint, disjoint from every
well-formed allocated (fixed) block, and - with no fixed blocks - the
total address count is conserved. -/
lemma allocateSubnets_inv {α : Type} (W maxPlen : Nat)
    (dlen sizeKey : α → Nat) (useIp : α → Bool) (alloc : List Net)
    (base : Net) (domains : List α) (assn : List (α × Option Net))
    (pool' : List Net) (hW : maxPlen ≤ W) (hbase : Net.wf W base)
    (h : allocateSubnets W maxPlen dlen sizeKey useIp alloc [base] domains =
      .ok (assn, pool')) :
    allWfIn W base (pool' ++ assignedNets assn) ∧
    List.Pairwise (Net.disj W) (pool' ++ assignedNets assn) ∧
    (∀ n ∈ assignedNets assn, ∀ y ∈ alloc, Net.wf W y → Net.disj W n y) ∧
    (alloc = [] → sizes W (pool' ++ assignedNets assn) = Net.size W base) := by
  rw [allocateSubnets, sortPoolDesc_singleton] at h
  have hstart := allocGo_inv W maxPlen sizeKey useIp alloc base hW
    (sortDomainsDesc dlen domains) [] [base] (assn, pool') h
    ?_ ?_ ?_ ?_
  · obtain ⟨I1, I2, I3, I4⟩ := hstart
    refine ⟨I1, I2, I3, ?_⟩
    intro hnil
    rw [I4 hnil]
    show sizes W ([base] ++ assignedNets ([] : List (α × Option Net))) =
      Net.size W base
    simp [assignedNets, sizes]
  · intro n hn
    rw [List.mem_singleton] at hn
    subst hn
    exact ⟨hbase, inside_refl W n⟩
  · intro n hn
    cases hn
  · show List.Pairwise (Net.disj W)
      ([base] ++ assignedNets ([] : List (α × Option Net)))
    simp [assignedNets]
  · intro n hn
    cases hn

/-! ### Claims -/

/-- Claim C1: after the subnet allocator runs for one address family over
a pool seeded with one base block and a list of broadcast domains, the
subnets registered on the domains are pairwise disjoint, and every
registered subnet is also disjoint from every user-fixed (pre-existing)
well-formed subnet of that family. -/
theorem claim1_no_overlap {α : Type} (W maxPlen : Nat)
    (dlen sizeKey : α → Nat) (useIp : α → Bool) (alloc : List Net)
    (base : Net) (domains : List α) (assn : List (α × Option Net))
    (pool' : List Net) (hW : maxPlen ≤ W) (hbase : Net.wf W base)
    (halloc : ∀ y ∈ alloc, Net.wf W y)
    (h : allocateSubnets W maxPlen dlen sizeKey useIp alloc [base] domains =
      .ok (assn, pool')) :
    List.Pairwise (Net.disj W) (assignedNets assn) ∧
    ∀ n ∈ assignedNets assn, ∀ y ∈ alloc, Net.disj W n y := by
  obtain ⟨I1, I2, I3, I4⟩ := allocateSubnets_inv W maxPlen dlen sizeKey useIp
    alloc base domains assn pool' hW hbase h
  exact ⟨(List.pairwise_append.mp I2).2.1,
    fun n hn y hy => I3 n hn y hy (halloc y hy)⟩

/-- Witness for claim C1: base 192.168.0.0/16, one fixed subnet
192.168.1.0/24, two enabled domains of fitting prefix length 30 under cap
24; the run assigns 192.168.0.0/24 and 192.168.2.0/24, disjoint from each
other and from the fixed block. -/
theorem claim1_no_overlap_witness :
    (24 ≤ 32 ∧ Net.wf 32 ⟨3232235520, 16⟩ ∧
      (∀ y ∈ [(⟨3232235776, 24⟩ : Net)], Net.wf 32 y)) ∧
    (List.Pairwise (Net.disj 32) (assignedNets
        [((), some (⟨3232235520, 24⟩ : Net)),
         ((), some (⟨3232236032, 24⟩ : Net))]) ∧
      ∀ n ∈ assignedNets [((), some (⟨3232235520, 24⟩ : Net)),
          ((), some (⟨3232236032, 24⟩ : Net))],
        ∀ y ∈ [(⟨3232235776, 24⟩ : Net)], Net.disj 32 n y) :=
  ⟨⟨by decide, by decide, by decide⟩,
    claim1_no_overlap 32 24 (fun _ : Unit => 0) (fun _ => 30)
      (fun _ => true) [⟨3232235776, 24⟩] ⟨3232235520, 16⟩ [(), ()]
      [((), some ⟨3232235520, 24⟩), ((), some ⟨3232236032, 24⟩)]
      [⟨3232236288, 24⟩, ⟨3232236544, 22⟩, ⟨3232237568, 21⟩,
       ⟨3232239616, 20⟩, ⟨3232243712, 19⟩, ⟨3232251904, 18⟩,
       ⟨3232268288, 17⟩]
      (by decide) (by decide) (by decide) (by rfl)⟩

/-- Claim C3 counterexample: with a user-fixed subnet 10.0.0.0/26 inside
the base block 10.0.0.0/24, one enabled domain of target prefix length 25
is processed, its candidate 10.0.0.0/25 is discarded on the overlap, and
afterwards the union of registered subnets (none), remaining pool
(10.0.0.128/25, 128 addresses) and fixed subnets inside the base (64
addresses) covers only 192 of the 256 addresses of the base block: the 64
addresses of 10.0.0.64/26 are lost, so conservation fails as claimed. -/
theorem claim3_counterexample :
    allocateSubnets 32 25 (fun _ : Unit => 0) (fun _ => 25) (fun _ => true)
      [⟨167772160, 26⟩] [⟨167772160, 24⟩] [()] =
      .ok ([((), none)], [⟨167772288, 25⟩]) ∧
    assignedNets [((), (none : Option Net))] = [] ∧
    sizes 32 [⟨167772288, 25⟩, ⟨167772160, 26⟩] = 192 ∧
    Net.size 32 ⟨167772160, 24⟩ = 256 :=
  ⟨by rfl, by rfl, by decide, by decide⟩

/-- Claim C3 as amended: when there are no user-fixed subnets, after any
allocator run over a single base block (hence at every intermediate point
of any run, every such point being the final state of the run on a
shorter domain list), the remaining pool blocks and the registered
subnets are all inside the base block, pairwise disjoint (no address
double-counted), and their sizes sum exactly to the size of the base
block (no address lost). -/
theorem claim3_conservation {α : Type} (W maxPlen : Nat)
    (dlen sizeKey : α → Nat) (useIp : α → Bool) (base : Net)
    (domains : List α) (assn : List (α × Option Net)) (pool' : List Net)
    (hW : maxPlen ≤ W) (hbase : Net.wf W base)
    (h : allocateSubnets W maxPlen dlen sizeKey useIp [] [base] domains =
      .ok (assn, pool')) :
    allWfIn W base (pool' ++ assignedNets assn) ∧
    List.Pairwise (Net.disj W) (pool' ++ assignedNets assn) ∧
    sizes W (pool' ++ assignedNets assn) = Net.size W base := by
  obtain ⟨I1, I2, I3, I4⟩ := allocateSubnets_inv W maxPlen dlen sizeKey useIp
    [] base domains assn pool' hW hbase h
  exact ⟨I1, I2, I4 rfl⟩

/-- Witness for the amended claim C3: one domain of target prefix length
25 carves 10.0.0.0/25 out of the base 10.0.0.0/24, and the registered
subnet plus the remaining pool block 10.0.0.128/25 partition the base. -/
theorem claim3_conservation_witness :
    (25 ≤ 32 ∧ Net.wf 32 ⟨167772160, 24⟩) ∧
    (allWfIn 32 ⟨167772160, 24⟩ ([⟨167772288, 25⟩] ++
        assignedNets [((), some (⟨167772160, 25⟩ : Net))]) ∧
      List.Pairwise (Net.disj 32) ([⟨167772288, 25⟩] ++
        assignedNets [((), some (⟨167772160, 25⟩ : Net))]) ∧
      sizes 32 ([⟨167772288, 25⟩] ++
        assignedNets [((), some (⟨167772160, 25⟩ : Net))]) =
        Net.size 32 ⟨167772160, 24⟩) :=
  ⟨⟨by decide, by decide⟩,
    claim3_conservation 32 25 (fun _ : Unit => 0) (fun _ => 25)
      (fun _ => true) ⟨167772160, 24⟩ [()]
      [((), some ⟨167772160, 25⟩)] [⟨167772288, 25⟩]
      (by decide) (by decide) (by rfl)⟩

/-- Claim C5 counterexample: a domain whose requirement calls for a /21
(fitting prefix length 21) under the cap `max_prefixlen = 24` receives
the subnet 10.0.0.0/21, whose prefix length 21 is smaller than the cap:
the cap does not bound the width of a single allocation from above. -/
theorem claim5_counterexample :
    allocateSubnets 32 24 (fun _ : Unit => 0) (fun _ => 21) (fun _ => true)
      [] [⟨167772160, 16⟩] [()] =
      .ok ([((), some ⟨167772160, 21⟩)], poolC6) ∧
    (⟨167772160, 21⟩ : Net).plen < 24 :=
  ⟨by rfl, by decide⟩

/-- Claim C5 as amended: the per-family maximum prefix length is a cap on
the prefix length itself, not on the block width: every subnet a run
registers has prefix length at most `max_prefixlen` (the block is never
smaller than a cap-sized block, e.g. never narrower than a /24), even
when the domain requirement alone would call for a smaller block. -/
theorem claim5_cap_bounds_plen {α : Type} (W maxPlen : Nat)
    (dlen sizeKey : α → Nat) (useIp : α → Bool) (alloc : List Net)
    (pool : List Net) (domains : List α) (assn : List (α × Option Net))
    (pool' : List Net)
    (h : allocateSubnets W maxPlen dlen sizeKey useIp alloc pool domains =
      .ok (assn, pool')) :
    ∀ p ∈ assn, ∀ n, p.2 = some n → n.plen ≤ maxPlen := by
  rw [allocateSubnets] at h
  intro p hp n hn
  have := allocGo_plen W maxPlen sizeKey useIp alloc
    (sortDomainsDesc dlen domains) [] (sortPoolDesc pool) (assn, pool') h
    (fun p hp => absurd hp (List.not_mem_nil p)) p hp n hn
  rw [this]
  exact min_le_left _ _

/-- Witness for the amended claim C5: in the run of the C5 scenario the
registered subnet 10.0.0.0/21 has prefix length at most the cap 24. -/
theorem claim5_cap_bounds_plen_witness :
    (⟨167772160, 21⟩ : Net).plen ≤ 24 :=
  claim5_cap_bounds_plen 32 24 (fun _ : Unit => 0) (fun _ => 21)
    (fun _ => true) [] [⟨167772160, 16⟩] [()]
    [((), some ⟨167772160, 21⟩)] poolC6 (by rfl)
    ((), some ⟨167772160, 21⟩) (List.mem_singleton.mpr rfl)
    ⟨167772160, 21⟩ rfl

/-- Claim C6 counterexample: scenario D.  A domain of 2000 required hosts
(2 + 2000 > 2^(32-24) = 256 addresses of a cap-sized /24 block) under the
cap `max_prefixlen = 24` does not abort: the allocation pass completes
without any error and registers the subnet 10.0.0.0/21 on the domain.  No
`SubnetTooSmall` error exists anywhere in the code. -/
theorem claim6_counterexample :
    allocateSubnets 32 24 BD.len_v4 BD.max_v4prefixlen BD.useIpVersion4 []
      [⟨167772160, 16⟩] [bdC6] =
      .ok ([(bdC6, some ⟨167772160, 21⟩)], poolC6) ∧
    BD.max_v4prefixlen bdC6 = 21 ∧ 2 + 2000 > 2 ^ (32 - 24) :=
  ⟨by rfl, by decide, by decide⟩

/-- Claim C6 as amended: a domain requiring more addresses than the
cap-sized block holds raises no error; the cap is simply overridden: in
any successful pass without user-fixed subnets, every family-enabled
domain receives a subnet of prefix length exactly
`min(max_prefixlen, size_key)`, so the scenario-D domain receives a /21.
Errors arise only from the pool (empty pool, or a biggest pool block
still smaller than required). -/
theorem claim6_no_subnet_too_small {α : Type} (W maxPlen : Nat)
    (dlen sizeKey : α → Nat) (useIp : α → Bool) (pool : List Net)
    (domains : List α) (assn : List (α × Option Net)) (pool' : List Net)
    (h : allocateSubnets W maxPlen dlen sizeKey useIp [] pool domains =
      .ok (assn, pool')) :
    ∀ p ∈ assn, useIp p.1 = true →
      ∃ n, p.2 = some n ∧ n.plen = min maxPlen (sizeKey p.1) := by
  rw [allocateSubnets] at h
  intro p hp hip
  obtain ⟨n, hn⟩ := allocGo_assigns W maxPlen sizeKey useIp
    (sortDomainsDesc dlen domains) [] (sortPoolDesc pool) (assn, pool') h
    (fun p hp => absurd hp (List.not_mem_nil p)) p hp hip
  refine ⟨n, hn, ?_⟩
  exact allocGo_plen W maxPlen sizeKey useIp []
    (sortDomainsDesc dlen domains) [] (sortPoolDesc pool) (assn, pool') h
    (fun p hp => absurd hp (List.not_mem_nil p)) p hp n hn

/-- Witness for the amended claim C6: in the scenario-D run the
2000-host domain is enabled and receives the subnet 10.0.0.0/21 with
prefix length min(24, 21) = 21. -/
theorem claim6_no_subnet_too_small_witness :
    (⟨167772160, 21⟩ : Net).plen = min 24 (BD.max_v4prefixlen bdC6) := by
  obtain ⟨n, hn, hp⟩ := claim6_no_subnet_too_small 32 24 BD.len_v4
    BD.max_v4prefixlen BD.useIpVersion4 [⟨167772160, 16⟩] [bdC6]
    [(bdC6, some ⟨167772160, 21⟩)] poolC6 (by rfl)
    (bdC6, some ⟨167772160, 21⟩) (List.mem_singleton.mpr rfl) (by decide)
  injection hn with hn1
  rw [hn1]
  exact hp

/-- Claim C7 counterexample: the pool still holds 10.0.1.0/24, from which
a conflict-free /25 could be carved (second conjunct: 10.0.1.0/25 has no
overlap with the fixed subnet 10.0.0.0/26), yet after the first candidate
10.0.0.0/25 collides with the fixed subnet the domain is left with no
subnet and the scan is not continued: the run ends with the domain
unassigned, refuting that the allocator keeps scanning the remaining pool
entries for the same domain. -/
theorem claim7_counterexample :
    allocateSubnets 32 25 (fun _ : Unit => 0) (fun _ => 25) (fun _ => true)
      [⟨167772160, 26⟩] [⟨167772160, 25⟩, ⟨167772416, 24⟩] [()] =
      .ok ([((), none)], [⟨167772416, 24⟩]) ∧
    (List.filter (fun y => is_subnet_of 32 ⟨167772416, 25⟩ y ||
        is_subnet_of 32 y ⟨167772416, 25⟩) [⟨167772160, 26⟩]).length = 0 :=
  ⟨by rfl, by rfl⟩

/-- Claim C7 as amended: the scan for a domain stops at the first pool
entry whose prefix length can reach the target, whether or not the
bisected candidate overlaps a fixed subnet.  That entry is removed from
the pool and the kept upper halves are pushed back; the candidate is
registered on the domain when it overlaps no fixed subnet, and otherwise
it is discarded and the domain is left without a subnet for the rest of
the pass - the scan never continues to later pool entries and no error is
raised for that domain. -/
theorem claim7_break_on_conflict (W : Nat) (alloc : List Net) (plen : Nat)
    (pre : List Net) (e : Net) (post : List Net)
    (hpre : ∀ x ∈ pre, plen < x.plen) (he : e.plen ≤ plen) :
    scanPool W alloc plen (pre ++ e :: post) =
      (some (if (alloc.filter (fun y =>
          is_subnet_of W (leftExpand W alloc (plen - e.plen) e []).1 y ||
          is_subnet_of W y (leftExpand W alloc (plen - e.plen) e []).1)).length
            = 0
        then some (leftExpand W alloc (plen - e.plen) e []).1 else none),
       pre ++ (post ++ (leftExpand W alloc (plen - e.plen) e []).2)) := by
  induction pre with
  | nil =>
    have hcond : plen = (leftExpand W alloc (plen - e.plen) e []).1.plen := by
      rw [leftExpand_fst]
      show plen = e.plen + (plen - e.plen)
      omega
    simp only [List.nil_append, scanPool, if_pos hcond]
  | cons p pre' ih =>
    have hp : plen < p.plen := hpre p (List.mem_cons_self p pre')
    have hcond : ¬ plen = (leftExpand W alloc (plen - p.plen) p []).1.plen := by
      rw [leftExpand_fst]
      show ¬ plen = p.plen + (plen - p.plen)
      omega
    simp only [List.cons_append, scanPool, if_neg hcond, List.append_eq]
    rw [ih (fun x hx => hpre x (List.mem_cons_of_mem p hx))]

/-- Witness for the amended claim C7: pool [10.0.0.0/25, 10.0.1.0/24],
fixed subnet 10.0.0.0/26, target prefix length 25: the scan breaks on the
first entry, discards it because of the conflict, and returns with the
domain unassigned and the second entry untouched. -/
theorem claim7_break_on_conflict_witness :
    ((∀ x ∈ ([] : List Net), 25 < x.plen) ∧
      (⟨167772160, 25⟩ : Net).plen ≤ 25) ∧
    scanPool 32 [⟨167772160, 26⟩] 25 [⟨167772160, 25⟩, ⟨167772416, 24⟩] =
      (some none, [⟨167772416, 24⟩]) :=
  ⟨⟨fun x hx => absurd hx (List.not_mem_nil x), by decide⟩,
    claim7_break_on_conflict 32 [⟨167772160, 26⟩] 25 [] ⟨167772160, 25⟩
      [⟨167772416, 24⟩] (fun x hx => absurd hx (List.not_mem_nil x))
      (by decide)⟩

/-- Claim C2 is contradicted by the code: `max_v4prefixlen` sums the IPv6
widths `interface_width[1]` of the v4-enabled interfaces instead of their
IPv4 widths `interface_width[0]`.  For a domain with one v4-enabled
interface of widths (5, 1) and `max_v4_prefixlen = 30` the code computes
a /30 (4 addresses) although the IPv4 widths call for a /29 (8
addresses), and issuing the 5 required addresses from cursor 1 runs past
the subnet: the IPv4 pass fails with the exhaustion error, so the
assigned capacity does not cover the required address count. -/
theorem claim2_code_bug_eval :
    BD.max_v4prefixlen bdC2 = 30 ∧ max_v4prefixlen_spec bdC2 = 29 ∧
    allocate_ipv4 30 [⟨167772160, 24⟩] [bdC2] =
      .error "No more available IPv4 address" :=
  ⟨by decide, by decide, by rfl⟩

/-- Claim C4 is contradicted by the code: `len_v4` sums the IPv4 widths
of the interfaces that already carry at least one IPv4 address, not of
the interfaces on v4-enabled nodes.  A domain with a single unaddressed
v4-enabled interface of width 1 has `len_v4 = 0` where the claim requires
1; consequently the descending sort processes a fully unaddressed
5-address domain after a pre-addressed 1-address domain. -/
theorem claim4_code_bug_eval :
    BD.len_v4 bdC4 = 0 ∧ len_v4_spec bdC4 = 1 ∧
    BD.len_v4 bdC2 = 0 ∧ len_v4_spec bdC2 = 5 ∧
    sortDomainsDesc BD.len_v4 [bdC2, ⟨[⟨1, 1, [(167772161, 24)], true⟩]⟩] =
      [⟨[⟨1, 1, [(167772161, 24)], true⟩]⟩, bdC2] :=
  ⟨by decide, by decide, by decide, by decide, by rfl⟩

/-- Claim C8 counterexample: in the scenario-C domain (one member with
explicit 10.0.0.5/24, one unaddressed member) the IPv4 pass with the
default base pool 192.168.0.0/16 DOES assign a fresh subnet to the domain
(192.168.0.0/24) and the unaddressed interface receives 192.168.0.1/24,
which does not lie in 10.0.0.0/24 (its containing network differs), so
neither of the two claimed outcomes holds. -/
theorem claim8_counterexample :
    allocate_ipv4 24 [⟨3232235520, 16⟩] [bdC8] =
      .ok ([(bdC8out, some ⟨3232235520, 24⟩)], poolC8) ∧
    netOf (3232235521, 24) ≠ ⟨167772160, 24⟩ :=
  ⟨by rfl, by decide⟩

/-- Claim C8 as amended: the fixed 10.0.0.0/24 is recorded in
`fixed_net4s` and respected as occupied (the freshly assigned subnet is
disjoint from it, and the pre-addressed interface keeps 10.0.0.5/24
untouched), but the allocator still assigns a fresh subnet to the domain
from the pool, and the unaddressed interface receives the first host
address of that fresh subnet (192.168.0.1/24 under the default base
pool), not an address inside 10.0.0.0/24. -/
theorem claim8_actual_behaviour :
    allocate_ipv4 24 [⟨3232235520, 16⟩] [bdC8] =
      .ok ([(bdC8out, some ⟨3232235520, 24⟩)], poolC8) ∧
    BD.fixed_net4s bdC8 = [⟨167772160, 24⟩] ∧
    Net.disj 32 ⟨3232235520, 24⟩ ⟨167772160, 24⟩ ∧
    bdC8out.intfs.map Intf.ips4 = [[(167772165, 24)], [(3232235521, 24)]] :=
  ⟨by rfl, by rfl, by decide, by rfl⟩

/-- Claim C10: on a domain state with an assigned IPv4 subnet,
`next_ipv4` returns the subnet address at the cursor (which the
constructor starts at 1, skipping the network address) and advances the
cursor by one; the error `No more available IPv4 address` is raised
exactly when the cursor has reached the total address count of the
subnet, so the call at cursor `size - 1` hands out the highest address of
the subnet - the IPv4 broadcast address - as an ordinary host address,
and the next call is the first to fail; with no assigned subnet the error
`No associated IPv4 subnet` is raised instead. -/
theorem claim10_next_ipv4 :
    ∀ (n : Net) (c : Nat),
    (initV4State (some n)).allocated_v4 = 1 ∧
    next_ipv4 ⟨none, c⟩ = .error "No associated IPv4 subnet" ∧
    (c < 2 ^ (32 - n.plen) →
      next_ipv4 ⟨some n, c⟩ = .ok ((n.addr + c, n.plen), ⟨some n, c + 1⟩)) ∧
    (2 ^ (32 - n.plen) ≤ c →
      next_ipv4 ⟨some n, c⟩ = .error "No more available IPv4 address") ∧
    next_ipv4 ⟨some n, 2 ^ (32 - n.plen) - 1⟩ =
      .ok ((Net.bcast 32 n, n.plen), ⟨some n, 2 ^ (32 - n.plen)⟩) ∧
    next_ipv4 ⟨some n, 2 ^ (32 - n.plen)⟩ =
      .error "No more available IPv4 address" := by
  intro n c
  have hs : 0 < 2 ^ (32 - n.plen) := Nat.pos_pow_of_pos _ (by decide)
  refine ⟨rfl, rfl, ?_, ?_, ?_, ?_⟩
  · intro hlt
    simp only [next_ipv4]
    rw [if_pos hlt]
  · intro hge
    simp only [next_ipv4]
    rw [if_neg (by omega)]
  · simp only [next_ipv4]
    rw [if_pos (by omega)]
    have h1 : n.addr + (2 ^ (32 - n.plen) - 1) = Net.bcast 32 n := by
      simp only [Net.bcast, Net.size]
      omega
    have h2 : 2 ^ (32 - n.plen) - 1 + 1 = 2 ^ (32 - n.plen) := by omega
    rw [h1, h2]
  · simp only [next_ipv4]
    rw [if_neg (by omega)]

/-- Witness for claim C10 on the subnet 10.0.0.0/30 (4 addresses): the
call at cursor 2 returns 10.0.0.2/30 and advances the cursor; the call at
cursor 3 returns the broadcast address 10.0.0.3/30; the call at cursor 4
fails with the exhaustion error. -/
theorem claim10_next_ipv4_witness :
    (2 < 2 ^ (32 - 30) ∧
      next_ipv4 ⟨some ⟨167772160, 30⟩, 2⟩ =
        .ok ((167772162, 30), ⟨some ⟨167772160, 30⟩, 3⟩)) ∧
    next_ipv4 ⟨some ⟨167772160, 30⟩, 3⟩ =
      .ok ((167772163, 30), ⟨some ⟨167772160, 30⟩, 4⟩) ∧
    next_ipv4 ⟨some ⟨167772160, 30⟩, 4⟩ =
      .error "No more available IPv4 address" :=
  ⟨⟨by decide, (claim10_next_ipv4 ⟨167772160, 30⟩ 2).2.2.1 (by decide)⟩,
    (claim10_next_ipv4 ⟨167772160, 30⟩ 3).2.2.2.2.1,
    (claim10_next_ipv4 ⟨167772160, 30⟩ 4).2.2.2.2.2⟩
